import Mathlib

/-!
Shallow embedding of the antibody binding-energy workflow
(`workflow.py` and `antibodybindingenergyregressionmodel.py`).

Token batches are lists of token-id rows; logits are rational score rows
per position; the filesystem touched by `compute_embeddings` is a record
of the existence bits the function tests, and its external effects
(curl download, extraction subprocess) are an explicit action trace.
-/

namespace Antibody

/-- Modelled from the spec: the protein vocabulary (`proteinseq_toks`) of the
third-party pretrained model, whose source is not part of this repository.
The spec only calls it "the protein vocabulary"; we use the standard
amino-acid letters. Only membership matters for the claims. -/
def vocab : List Char :=
  ['L', 'A', 'G', 'V', 'S', 'E', 'R', 'T', 'I', 'D',
   'P', 'K', 'Q', 'N', 'F', 'Y', 'M', 'H', 'W', 'C']

/-- From `workflow.py` line 29: the 1-indexed list of indices allowed to mutate. -/
def initial_masks : List ℕ :=
  [31, 32, 33, 47, 50, 51, 52, 54, 55, 57, 58, 59, 60, 61, 62,
   99, 100, 101, 102, 103, 104, 271, 273, 274, 275, 335, 336, 337, 338, 340, 341]

/-- One row of `apply_mask` (`workflow.py` lines 270-273): the inner loop
`for j in masks: tokens[i][j] = 33` over a single token row. -/
def applyMaskRow (row : List ℕ) (masks : List ℕ) : List ℕ :=
  masks.foldl (fun r j => r.set j 33) row

/-- `apply_mask(tokens, masks)` (`workflow.py` lines 270-273): writes mask
token 33 at every index of `masks` in every row of the batch. -/
def apply_mask (tokens : List (List ℕ)) (masks : List ℕ) : List (List ℕ) :=
  tokens.map (fun row => applyMaskRow row masks)

/-- Modelled from the spec: the third-party batch converter tokenizes a
sequence by prepending a beginning-of-sequence token at index 0 (the
converter itself is not among the repository sources; `workflow.py` line 268
records the resulting convention "tokens is 1-indexed because of BOS token"). -/
def tokenize (bos : ℕ) (encode : Char → ℕ) (seq : List Char) : List ℕ :=
  bos :: seq.map encode

/-- `random_gen(seq, masks)` (`workflow.py` lines 222-223): the join of
`[(random.choice(vocab) if i+1 in masks else tok) for i,tok in enumerate(seq)]`.
The successive results of `random.choice(vocab)` are modelled by the oracle
`choice`, giving the vocabulary element drawn at position `i`. -/
def random_gen (choice : ℕ → Fin vocab.length) (seq : List Char) (masks : List ℕ) :
    List Char :=
  seq.enum.map (fun p => if p.1 + 1 ∈ masks then vocab.get (choice p.1) else p.2)

/-- A concrete choice oracle (always the first vocabulary element), used to
evaluate `random_gen` on concrete inputs. -/
def constChoice : ℕ → Fin vocab.length := fun _ => ⟨0, by decide⟩

/-- The filesystem existence bits consulted by `compute_embeddings`
(`workflow.py` lines 62-75). -/
structure FS where
  fastaExists : Bool
  embedDirExists : Bool
  modelExists : Bool
  modelDirExists : Bool

/-- External effects `compute_embeddings` can perform: `os.mkdir(model_dir)`,
the `curl` download of the pretrained model, and the `esm_src/extract.py`
subprocess. -/
inductive Action where
  | mkdirModels
  | download
  | extractEmbeddings
deriving DecidableEq

/-- `compute_embeddings(name)` (`workflow.py` lines 62-75): two `assert`
preconditions, a conditional model download, then the extraction subprocess.
Returns the trace of performed actions together with the assertion message
when an `assert` fires (in which case nothing has been performed). -/
def compute_embeddings (fs : FS) : List Action × Option String :=
  if fs.fastaExists = false then
    ([], some "Fasta file does not exist")
  else if fs.embedDirExists = true then
    ([], some "Embeddings already exist")
  else
    ((if fs.modelExists = true then []
      else (if fs.modelDirExists = true then [] else [Action.mkdirModels]) ++
        [Action.download]) ++ [Action.extractEmbeddings], none)

/-- A layer of the Keras model built by `RegressionModel`
(`antibodybindingenergyregressionmodel.py` lines 45-69). A dense layer
records its unit count and whether it has the relu activation. -/
inductive Layer where
  | inputLayer (shape : ℕ)
  | dropoutLayer (rate : ℚ)
  | denseLayer (units : ℕ) (relu : Bool)
  | batchNormLayer
deriving DecidableEq

/-- `RegressionModel(input_shape, dropout=.2)`
(`antibodybindingenergyregressionmodel.py` lines 45-69), as the sequence of
Keras layers applied from input to output. -/
def RegressionModel (input_shape : ℕ) (dropout : ℚ) : List Layer :=
  [Layer.inputLayer input_shape, Layer.dropoutLayer dropout,
   Layer.denseLayer 800 true, Layer.batchNormLayer, Layer.dropoutLayer dropout,
   Layer.denseLayer 700 true, Layer.batchNormLayer, Layer.dropoutLayer dropout,
   Layer.denseLayer 400 true, Layer.batchNormLayer, Layer.dropoutLayer dropout,
   Layer.denseLayer 3 false]

/-- The unit counts of the dense (fully connected) layers, in order. -/
def denseWidths (m : List Layer) : List ℕ :=
  m.filterMap (fun l => match l with
    | Layer.denseLayer u _ => some u
    | _ => none)

/-- Count of neuron-carrying layers: the input layer and each dense layer
contribute one layer of units; dropout and batch normalization reshape
nothing and carry no units of their own. -/
def neuronLayerCount (m : List Layer) : ℕ :=
  (m.filter (fun l => match l with
    | Layer.inputLayer _ => true
    | Layer.denseLayer _ _ => true
    | _ => false)).length

/-- The unit count of the final dense layer (the network output). -/
def outputUnits (m : List Layer) : Option ℕ :=
  (denseWidths m).getLast?

/-- Index of the first maximum, scanning `rest` with current maximum `m`
found at index `best`, the next element having index `idx`. -/
def argmaxFrom {α : Type} [LinearOrder α] : List α → α → ℕ → ℕ → ℕ
  | [], _, _, best => best
  | x :: xs, m, idx, best =>
      if m < x then argmaxFrom xs x (idx + 1) idx
      else argmaxFrom xs m (idx + 1) best

/-- `torch.argmax` along a vector: index of the first maximal entry
(0 on the empty vector, which torch rejects; never reached here). -/
def listArgmax {α : Type} [LinearOrder α] : List α → ℕ
  | [] => 0
  | x :: xs => argmaxFrom xs x 1 0

/-- Sum of `exp` over a logit vector: the softmax denominator. -/
noncomputable def expSum (v : List ℚ) : ℝ :=
  (v.map (fun x : ℚ => Real.exp (x : ℝ))).sum

/-- `torch.nn.Softmax` on one logit vector: `exp xᵢ / Σⱼ exp xⱼ`. -/
noncomputable def softmax (v : List ℚ) : List ℝ :=
  v.map (fun x : ℚ => Real.exp (x : ℝ) / expSum v)

/-- One row of `softmax_predict_unmask` (`workflow.py` lines 299-308) with the
default `predict_index=-1`: `masks = (batch_tokens[i] == 33)` selects the
masked positions, `sm(logits[i][masks])` applies the softmax along the vocab
axis (`dim=1`) to the logit vector of each selected position, and when the guard
`softmax_masks.size()[0] > 0` holds, each masked slot is overwritten with
`torch.argmax` of its softmax row. -/
noncomputable def softmaxPredictUnmaskRow (toks : List ℕ) (lg : List (List ℚ)) :
    List ℕ :=
  if (toks.filter (fun t => t = 33)).length > 0 then
    (toks.zip lg).map (fun p =>
      if p.1 = 33 then listArgmax (softmax p.2) else p.1)
  else toks

/-- `softmax_predict_unmask(batch_tokens, logits)` (`workflow.py` lines
299-308) with the default `predict_index=-1`: the row update applied to every
batch row. -/
noncomputable def softmax_predict_unmask (batch : List (List ℕ))
    (logits : List (List (List ℚ))) : List (List ℕ) :=
  (batch.zip logits).map (fun p => softmaxPredictUnmaskRow p.1 p.2)

/-- One row of the FoldX energy metadata spreadsheet, with the three
binding-energy metrics read by `load_seqs_and_embeddings`
(`workflow.py` lines 188-199). -/
structure MetaRow where
  antibodyID : String
  wholeModelDDG : ℚ
  interfaceOnlyDDG : ℚ
  statium : ℚ

/-- The binding-energy metrics stored in the dictionary entry of a sequence by
`load_seqs_and_embeddings` when metadata is supplied. -/
structure SeqEntry where
  wholeModelDDG : ℚ
  interfaceOnlyDDG : ℚ
  statium : ℚ
deriving DecidableEq

/-- `energy_metadata.loc[energy_metadata.Antibody_ID==label]` followed by
`.iloc[0]` (`workflow.py` lines 189-195): the first metadata row whose
`Antibody_ID` equals the label, if any. -/
def firstMatch (md : List MetaRow) (label : String) : Option MetaRow :=
  (md.filter (fun r => r.antibodyID = label)).head?

/-- The metadata enrichment loop of `load_seqs_and_embeddings`
(`workflow.py` lines 174-203) when `energy_metadata` is supplied: for each
sequence label, `assert` that a metadata row matches, take the first matching
row, and store its three binding-energy metrics in the entry for that label.
The embedding-tensor part of each entry is loaded from files and does not
bear on the metadata claim, so the entry keeps only the metrics. -/
def load_seqs_and_embeddings (labels : List String) (md : List MetaRow) :
    Except String (List (String × SeqEntry)) :=
  match labels with
  | [] => Except.ok []
  | l :: ls =>
    match firstMatch md l with
    | none => Except.error ("Expected a metadata entry for " ++ l)
    | some r =>
      (load_seqs_and_embeddings ls md).map
        (fun rest => (l, ⟨r.wholeModelDDG, r.interfaceOnlyDDG, r.statium⟩) :: rest)

/-- Sum of squares of a vector: the square of its Euclidean norm. -/
def sumSq (v : List ℝ) : ℝ :=
  (v.map (fun x => x ^ 2)).sum

/-- Euclidean (L2) norm of a vector. -/
noncomputable def l2norm (v : List ℝ) : ℝ :=
  Real.sqrt (sumSq v)

/-- `keras.utils.normalize(X, axis=-1, order=2)` on one row: divide by the
L2 norm, a zero norm being replaced by 1 so zero rows pass through. -/
noncomputable def normalizeRow (v : List ℝ) : List ℝ :=
  v.map (fun x => x / (if l2norm v = 0 then 1 else l2norm v))

/-- `load_embeddings(name, batch)` (`workflow.py` lines 132-152): each
stored representation matrix of each sequence has its first (beginning-of-sequence)
entry deleted, the per-sequence tensors are concatenated along a new leading
axis and flattened from dim 1, and the resulting rows are L2-normalized along
the last axis. File access and torch devices are abstracted away: the input
is the list of loaded per-sequence matrices. -/
noncomputable def load_embeddings (embs : List (List (List ℝ))) :
    List (List ℝ) :=
  embs.map (fun mat => normalizeRow (mat.drop 1).flatten)

/-! Helper lemmas. -/

theorem getD_set_of_lt (l : List ℕ) (m a j : ℕ) (hj : j < l.length) :
    (l.set m a).getD j 0 = if m = j then a else l.getD j 0 := by
  rw [List.getD_eq_getElem _ _ (by simpa using hj), List.getElem_set,
    List.getD_eq_getElem _ _ hj]

theorem applyMaskRow_cons (row : List ℕ) (m : ℕ) (ms : List ℕ) :
    applyMaskRow row (m :: ms) = applyMaskRow (row.set m 33) ms := rfl

theorem applyMaskRow_length (masks row : List ℕ) :
    (applyMaskRow row masks).length = row.length := by
  induction masks generalizing row with
  | nil => rfl
  | cons m ms ih =>
    rw [applyMaskRow_cons, ih (row.set m 33), List.length_set]

theorem applyMaskRow_getD (masks row : List ℕ) (j : ℕ) (hj : j < row.length) :
    (applyMaskRow row masks).getD j 0 = if j ∈ masks then 33 else row.getD j 0 := by
  induction masks generalizing row with
  | nil => simp [applyMaskRow]
  | cons m ms ih =>
    rw [applyMaskRow_cons, ih (row.set m 33) (by simpa using hj),
      getD_set_of_lt row m 33 j hj]
    by_cases hms : j ∈ ms
    · simp [hms]
    · by_cases hm : m = j
      · subst hm
        simp
      · simp [hms, hm, Ne.symm hm]

theorem applyMaskRow_idem (row masks : List ℕ) :
    applyMaskRow (applyMaskRow row masks) masks = applyMaskRow row masks := by
  apply List.ext_getElem (by rw [applyMaskRow_length, applyMaskRow_length])
  intro n h1 h2
  have hrow : n < row.length := by
    simpa [applyMaskRow_length] using h2
  have hrow2 : n < (applyMaskRow row masks).length := by
    simpa [applyMaskRow_length] using hrow
  rw [← List.getD_eq_getElem _ 0 h1, ← List.getD_eq_getElem _ 0 h2,
    applyMaskRow_getD masks _ n hrow2, applyMaskRow_getD masks row n hrow]
  by_cases h : n ∈ masks
  · simp [h]
  · simp [h, applyMaskRow_getD masks row n hrow]

theorem argmaxFrom_map {f : ℚ → ℝ} (hf : StrictMono f) :
    ∀ (xs : List ℚ) (m : ℚ) (idx best : ℕ),
      argmaxFrom (xs.map f) (f m) idx best = argmaxFrom xs m idx best := by
  intro xs
  induction xs with
  | nil => intro m idx best; rfl
  | cons x xs ih =>
    intro m idx best
    simp only [List.map_cons, argmaxFrom, hf.lt_iff_lt]
    by_cases h : m < x
    · rw [if_pos h, if_pos h, ih]
    · rw [if_neg h, if_neg h, ih]

theorem listArgmax_map {f : ℚ → ℝ} (hf : StrictMono f) (v : List ℚ) :
    listArgmax (v.map f) = listArgmax v := by
  cases v with
  | nil => rfl
  | cons x xs => simpa [listArgmax] using argmaxFrom_map hf xs x 1 0

theorem expSum_pos (v : List ℚ) (hv : v ≠ []) : 0 < expSum v := by
  cases v with
  | nil => exact absurd rfl hv
  | cons x xs =>
    have h2 : (0 : ℝ) ≤ (xs.map (fun y : ℚ => Real.exp (y : ℝ))).sum := by
      apply List.sum_nonneg
      intro z hz
      obtain ⟨y, _, rfl⟩ := List.mem_map.mp hz
      exact (Real.exp_pos _).le
    have h1 : (0 : ℝ) < Real.exp (x : ℝ) := Real.exp_pos _
    simp only [expSum, List.map_cons, List.sum_cons]
    linarith

theorem listArgmax_softmax (v : List ℚ) :
    listArgmax (softmax v) = listArgmax v := by
  rcases eq_or_ne v [] with rfl | hv
  · rfl
  · have hpos : 0 < expSum v := expSum_pos v hv
    have hmono : StrictMono fun q : ℚ => Real.exp (q : ℝ) / expSum v := by
      intro a b hab
      exact div_lt_div_of_pos_right
        (Real.exp_lt_exp.mpr (by exact_mod_cast hab)) hpos
    exact listArgmax_map hmono v

theorem softmaxPredictUnmaskRow_getD (toks : List ℕ) (lg : List (List ℚ))
    (hlen : toks.length = lg.length) (j : ℕ) (hj : j < toks.length) :
    (softmaxPredictUnmaskRow toks lg).getD j 0 =
      if toks.getD j 0 = 33 then listArgmax (softmax (lg.getD j []))
      else toks.getD j 0 := by
  have hjl : j < lg.length := hlen ▸ hj
  unfold softmaxPredictUnmaskRow
  by_cases hc : (toks.filter (fun t => t = 33)).length > 0
  · rw [if_pos hc]
    have hz : j < (toks.zip lg).length := by
      rw [List.length_zip]
      exact lt_min hj hjl
    rw [List.getD_eq_getElem _ _ (by simpa using hz), List.getElem_map,
      List.getElem_zip, List.getD_eq_getElem toks _ hj,
      List.getD_eq_getElem lg _ hjl]
  · rw [if_neg hc]
    have hfil : toks.filter (fun t => t = 33) = [] :=
      List.length_eq_zero.mp (Nat.eq_zero_of_not_pos hc)
    have hno : toks.getD j 0 ≠ 33 := by
      rw [List.getD_eq_getElem toks _ hj]
      have hmem : toks[j] ∈ toks := List.getElem_mem hj
      intro h33
      have := List.filter_eq_nil_iff.mp hfil _ hmem
      simp [h33] at this
    rw [if_neg hno]

/-! Claim theorems. -/

/-- C5: the regression model built by `RegressionModel` is a five-layer dense
(fully connected feed-forward) network: counting the input layer and the
dense layers it has exactly five layers of units, and its dense layers have
widths 800, 700, 400 and 3. -/
theorem RegressionModel_five_layer_dense (input_shape : ℕ) (dropout : ℚ) :
    neuronLayerCount (RegressionModel input_shape dropout) = 5 ∧
    denseWidths (RegressionModel input_shape dropout) = [800, 700, 400, 3] :=
  ⟨rfl, rfl⟩

/-- C4: `compute_embeddings` raises an AssertionError if and only if the
fasta file does not exist or the embedding directory already exists, and when
it does, it aborts without performing any download or subprocess invocation
(the action trace is empty). -/
theorem compute_embeddings_assertions (fs : FS) :
    ((compute_embeddings fs).2.isSome = true ↔
      (fs.fastaExists = false ∨ fs.embedDirExists = true)) ∧
    ((compute_embeddings fs).2.isSome = true → (compute_embeddings fs).1 = []) := by
  obtain ⟨f, e, m, d⟩ := fs
  cases f <;> cases e <;> simp [compute_embeddings]

/-- Witness for C4: with the fasta missing, an assertion fires and the action
trace is empty. -/
theorem compute_embeddings_assertions_witness :
    (compute_embeddings ⟨false, false, true, true⟩).2.isSome = true ∧
    (compute_embeddings ⟨false, false, true, true⟩).1 = [] :=
  ⟨by decide,
    (compute_embeddings_assertions ⟨false, false, true, true⟩).2 (by decide)⟩

/-- C7: on a run where no assertion fires, `compute_embeddings` downloads the
pretrained model if and only if the model file does not already exist locally;
in particular when the file exists no download action is performed, so the
existing file is untouched. -/
theorem compute_embeddings_download_iff (fs : FS)
    (h : (compute_embeddings fs).2 = none) :
    Action.download ∈ (compute_embeddings fs).1 ↔ fs.modelExists = false := by
  obtain ⟨f, e, m, d⟩ := fs
  cases f <;> cases e <;> cases m <;> cases d <;> (revert h; decide)

/-- Witness for C7: with the model file already present, the successful run
performs no download. -/
theorem compute_embeddings_download_iff_witness :
    (compute_embeddings ⟨true, false, true, true⟩).2 = none ∧
    (Action.download ∈ (compute_embeddings ⟨true, false, true, true⟩).1 ↔
      FS.modelExists ⟨true, false, true, true⟩ = false) :=
  ⟨by decide, compute_embeddings_download_iff ⟨true, false, true, true⟩ (by decide)⟩

/-- C2: `apply_mask` writes token 33 at every index of `masks` in every row
and leaves every other index unchanged; and since the tokenized batch carries
a prepended beginning-of-sequence token at index 0, the 1-based mask index
addresses residue `k - 1` of the original sequence. -/
theorem apply_mask_spec (tokens : List (List ℕ)) (masks : List ℕ) (i j : ℕ)
    (hi : i < tokens.length) (hj : j < (tokens.getD i []).length)
    (bos : ℕ) (encode : Char → ℕ) (seq : List Char) (k : ℕ)
    (hk1 : 1 ≤ k) (hk2 : k - 1 < seq.length) :
    (((apply_mask tokens masks).getD i []).getD j 0 =
      if j ∈ masks then 33 else (tokens.getD i []).getD j 0) ∧
    (tokenize bos encode seq).getD k 0 = encode (seq.getD (k - 1) 'A') := by
  constructor
  · rw [List.getD_eq_getElem tokens _ hi] at hj ⊢
    have hi2 : i < (apply_mask tokens masks).length := by
      simpa [apply_mask] using hi
    rw [List.getD_eq_getElem _ _ hi2]
    simp only [apply_mask, List.getElem_map]
    exact applyMaskRow_getD masks _ j hj
  · obtain ⟨k, rfl⟩ : ∃ m, k = m + 1 := ⟨k - 1, by omega⟩
    simp only [Nat.add_sub_cancel] at hk2 ⊢
    rw [tokenize, List.getD_cons_succ, List.getD_eq_getElem _ _ (by simpa using hk2),
      List.getElem_map, List.getD_eq_getElem _ _ hk2]

/-- Witness for C2 at a concrete batch, mask list and tokenized sequence. -/
theorem apply_mask_spec_witness :
    ((((apply_mask [[5, 6, 7]] [1]).getD 0 []).getD 1 0 =
      if 1 ∈ [1] then 33 else (([[5, 6, 7]] : List (List ℕ)).getD 0 []).getD 1 0) ∧
    (tokenize 0 Char.toNat ['A', 'R']).getD 1 0 =
      Char.toNat (['A', 'R'].getD 0 'A')) :=
  apply_mask_spec [[5, 6, 7]] [1] 0 1 (by decide) (by decide)
    0 Char.toNat ['A', 'R'] 1 (by decide) (by decide)

/-- C8: `apply_mask` is idempotent: applying it twice with the same mask list
yields the same batch as applying it once. -/
theorem apply_mask_idempotent (tokens : List (List ℕ)) (masks : List ℕ) :
    apply_mask (apply_mask tokens masks) masks = apply_mask tokens masks := by
  simp only [apply_mask, List.map_map, Function.comp]
  simp [applyMaskRow_idem]

/-- C1: with the default `predict_index=-1`, `softmax_predict_unmask` replaces
every position holding token 33 with the arg-max over the vocabulary of the
softmax of the logits at that position, leaves every other position unchanged,
and that arg-max equals the arg-max of the raw logits, softmax being strictly
monotone. -/
theorem softmax_predict_unmask_spec (batch : List (List ℕ))
    (logits : List (List (List ℚ)))
    (hb : batch.length = logits.length)
    (hrow : ∀ i, i < batch.length →
      (batch.getD i []).length = (logits.getD i []).length)
    (i j : ℕ) (hi : i < batch.length) (hj : j < (batch.getD i []).length) :
    (((softmax_predict_unmask batch logits).getD i []).getD j 0 =
      if (batch.getD i []).getD j 0 = 33 then
        listArgmax (softmax ((logits.getD i []).getD j []))
      else (batch.getD i []).getD j 0) ∧
    listArgmax (softmax ((logits.getD i []).getD j [])) =
      listArgmax ((logits.getD i []).getD j []) := by
  refine ⟨?_, listArgmax_softmax _⟩
  have hil : i < logits.length := hb ▸ hi
  have hlen : batch[i].length = logits[i].length := by
    have := hrow i hi
    rwa [List.getD_eq_getElem batch _ hi, List.getD_eq_getElem logits _ hil] at this
  rw [List.getD_eq_getElem batch _ hi] at hj ⊢
  rw [List.getD_eq_getElem logits _ hil]
  have hz : i < (batch.zip logits).length := by
    rw [List.length_zip]
    exact lt_min hi hil
  have hzr : i < (softmax_predict_unmask batch logits).length := by
    simpa [softmax_predict_unmask] using hz
  rw [List.getD_eq_getElem _ _ hzr]
  simp only [softmax_predict_unmask, List.getElem_map, List.getElem_zip]
  exact softmaxPredictUnmaskRow_getD _ _ hlen j hj

/-- Witness for C1 on a one-row batch whose first position is masked. -/
theorem softmax_predict_unmask_spec_witness :
    ((((softmax_predict_unmask [[33, 5]] [[[1, 2], [3, 4]]]).getD 0 []).getD 0 0 =
      if (33 : ℕ) = 33 then listArgmax (softmax [1, 2]) else 33) ∧
    listArgmax (softmax ([1, 2] : List ℚ)) = listArgmax ([1, 2] : List ℚ)) :=
  softmax_predict_unmask_spec [[33, 5]] [[[1, 2], [3, 4]]] rfl
    (by intro i hi; obtain rfl := Nat.lt_one_iff.mp hi; rfl)
    0 0 (by decide) (by decide)

/-- C9: a batch row containing no token 33 is left completely unchanged by
`softmax_predict_unmask` with the default `predict_index=-1`: the size guard
skips the arg-max assignment for such a row, and the function is total. -/
theorem softmax_predict_unmask_no_mask (batch : List (List ℕ))
    (logits : List (List (List ℚ))) (i : ℕ)
    (hb : batch.length = logits.length) (hi : i < batch.length)
    (hno : ∀ t ∈ batch.getD i [], t ≠ 33) :
    (softmax_predict_unmask batch logits).getD i [] = batch.getD i [] := by
  have hil : i < logits.length := hb ▸ hi
  have hz : i < (batch.zip logits).length := by
    rw [List.length_zip]
    exact lt_min hi hil
  rw [List.getD_eq_getElem batch _ hi] at hno ⊢
  have hzr : i < (softmax_predict_unmask batch logits).length := by
    simpa [softmax_predict_unmask] using hz
  rw [List.getD_eq_getElem _ _ hzr]
  simp only [softmax_predict_unmask, List.getElem_map, List.getElem_zip]
  unfold softmaxPredictUnmaskRow
  rw [if_neg]
  simp only [gt_iff_lt, not_lt, Nat.le_zero, List.length_eq_zero,
    List.filter_eq_nil_iff]
  intro a ha
  simpa using hno a ha

/-- Witness for C9 on a one-row batch with no masked position. -/
theorem softmax_predict_unmask_no_mask_witness :
    (softmax_predict_unmask [[5, 6]] [[[1], [2]]]).getD 0 [] = [5, 6] :=
  softmax_predict_unmask_no_mask [[5, 6]] [[[1], [2]]] 0 rfl (by decide) (by decide)

/-- C3: `random_gen` returns a sequence of the same length in which each
position whose 1-based index is not masked keeps its original character and
each masked position holds an element of the protein vocabulary. -/
theorem random_gen_spec (choice : ℕ → Fin vocab.length) (seq : List Char)
    (masks : List ℕ) :
    (random_gen choice seq masks).length = seq.length ∧
    ∀ i, i < seq.length →
      (i + 1 ∉ masks →
        (random_gen choice seq masks).getD i 'A' = seq.getD i 'A') ∧
      (i + 1 ∈ masks → (random_gen choice seq masks).getD i 'A' ∈ vocab) := by
  have hlen : (random_gen choice seq masks).length = seq.length := by
    simp [random_gen, List.enum_length]
  refine ⟨hlen, ?_⟩
  intro i hi
  have hig : i < (random_gen choice seq masks).length := hlen ▸ hi
  have hie : i < seq.enum.length := by simpa [List.enum_length] using hi
  have hval : (random_gen choice seq masks).getD i 'A' =
      if i + 1 ∈ masks then vocab.get (choice i) else seq[i] := by
    rw [List.getD_eq_getElem _ _ hig]
    simp only [random_gen, List.getElem_map, List.getElem_enum]
  constructor
  · intro hm
    rw [hval, if_neg hm, List.getD_eq_getElem seq _ hi]
  · intro hm
    rw [hval, if_pos hm]
    exact List.get_mem vocab _ _

/-- C6: whenever `load_seqs_and_embeddings` succeeds with metadata supplied,
the entry of every requested sequence carries all three binding-energy
metrics, taken from the first matching metadata row, and the output layer of
the regression network has exactly 3 units. -/
theorem load_seqs_and_embeddings_metrics (labels : List String)
    (md : List MetaRow) (entries : List (String × SeqEntry))
    (hok : load_seqs_and_embeddings labels md = Except.ok entries)
    (input_shape : ℕ) (dropout : ℚ) :
    (∀ l ∈ labels, ∃ r, firstMatch md l = some r ∧
      (l, (⟨r.wholeModelDDG, r.interfaceOnlyDDG, r.statium⟩ : SeqEntry)) ∈ entries) ∧
    outputUnits (RegressionModel input_shape dropout) = some 3 := by
  refine ⟨?_, rfl⟩
  induction labels generalizing entries with
  | nil => simp
  | cons l ls ih =>
    intro x hx
    rw [load_seqs_and_embeddings] at hok
    cases hfm : firstMatch md l with
    | none =>
      rw [hfm] at hok
      exact absurd hok (by simp)
    | some r =>
      rw [hfm] at hok
      cases hrec : load_seqs_and_embeddings ls md with
      | error e =>
        rw [hrec] at hok
        exact absurd hok (by simp [Except.map])
      | ok rest =>
        rw [hrec] at hok
        simp only [Except.map] at hok
        have hent : entries =
            (l, (⟨r.wholeModelDDG, r.interfaceOnlyDDG, r.statium⟩ : SeqEntry)) :: rest := by
          cases hok
          rfl
        subst hent
        rcases List.mem_cons.mp hx with rfl | hxs
        · exact ⟨r, hfm, List.mem_cons_self _ _⟩
        · obtain ⟨s, hs1, hs2⟩ := ih rest hrec x hxs
          exact ⟨s, hs1, List.mem_cons_of_mem _ hs2⟩

/-- Witness for C6 on a single label matching a single metadata row. -/
theorem load_seqs_and_embeddings_metrics_witness :
    load_seqs_and_embeddings ["a"] [⟨"a", 1, 2, 3⟩] =
      Except.ok [("a", (⟨1, 2, 3⟩ : SeqEntry))] ∧
    (∃ r, firstMatch [(⟨"a", 1, 2, 3⟩ : MetaRow)] "a" = some r ∧
      ("a", (⟨r.wholeModelDDG, r.interfaceOnlyDDG, r.statium⟩ : SeqEntry)) ∈
        [("a", (⟨1, 2, 3⟩ : SeqEntry))]) ∧
    outputUnits (RegressionModel 10 (1 / 5)) = some 3 :=
  ⟨rfl,
    (load_seqs_and_embeddings_metrics ["a"] [⟨"a", 1, 2, 3⟩]
      [("a", ⟨1, 2, 3⟩)] rfl 10 (1 / 5)).1 "a" (List.mem_singleton_self _),
    (load_seqs_and_embeddings_metrics ["a"] [⟨"a", 1, 2, 3⟩]
      [("a", ⟨1, 2, 3⟩)] rfl 10 (1 / 5)).2⟩

theorem sumSq_nonneg (v : List ℝ) : 0 ≤ sumSq v := by
  apply List.sum_nonneg
  intro x hx
  obtain ⟨y, _, rfl⟩ := List.mem_map.mp hx
  positivity

theorem eq_zero_of_sumSq_eq_zero (v : List ℝ) (h : sumSq v = 0) :
    ∀ x ∈ v, x = 0 := by
  induction v with
  | nil => simp
  | cons a as ih =>
    have h1 : a ^ 2 + sumSq as = 0 := by simpa [sumSq] using h
    have ha2 : (0 : ℝ) ≤ a ^ 2 := sq_nonneg a
    have has : 0 ≤ sumSq as := sumSq_nonneg as
    have ha : a ^ 2 = 0 := by linarith
    have hs : sumSq as = 0 := by linarith
    intro x hx
    rcases List.mem_cons.mp hx with rfl | hx
    · exact sq_eq_zero_iff.mp ha
    · exact ih hs x hx

theorem normalizeRow_of_l2norm_zero (v : List ℝ) (h : l2norm v = 0) :
    ∀ x ∈ normalizeRow v, x = 0 := by
  have hs : sumSq v = 0 := (Real.sqrt_eq_zero (sumSq_nonneg v)).mp h
  intro x hx
  obtain ⟨y, hy, rfl⟩ := List.mem_map.mp hx
  rw [eq_zero_of_sumSq_eq_zero v hs y hy]
  simp

theorem l2norm_normalizeRow (v : List ℝ) (hn : l2norm v ≠ 0) :
    l2norm (normalizeRow v) = 1 := by
  have hnn : 0 ≤ l2norm v := Real.sqrt_nonneg _
  have hpos : 0 < l2norm v := lt_of_le_of_ne hnn (Ne.symm hn)
  have hrow : normalizeRow v = v.map (fun x : ℝ => x / l2norm v) := by
    simp [normalizeRow, hn]
  have hcomp : ((fun x : ℝ => x ^ 2) ∘ fun x : ℝ => x / l2norm v) =
      fun x : ℝ => x ^ 2 * (l2norm v ^ 2)⁻¹ := by
    funext x
    rw [Function.comp_apply, div_pow, div_eq_mul_inv]
  have hsum : sumSq (normalizeRow v) = sumSq v * (l2norm v ^ 2)⁻¹ := by
    rw [hrow]
    simp only [sumSq, List.map_map, hcomp]
    exact List.sum_map_mul_right v (fun x : ℝ => x ^ 2) _
  have hsq : Real.sqrt (sumSq v) = l2norm v := rfl
  rw [l2norm, hsum, Real.sqrt_mul (sumSq_nonneg v), Real.sqrt_inv,
    Real.sqrt_sq hnn, hsq]
  exact mul_inv_cancel₀ hn

/-- C10: every nonzero row of the matrix returned by `load_embeddings` has
unit Euclidean norm: the concatenated flattened embeddings are L2-normalized
along the last axis. -/
theorem load_embeddings_unit_norm (embs : List (List (List ℝ)))
    (row : List ℝ) (hrow : row ∈ load_embeddings embs)
    (hnz : ∃ x ∈ row, x ≠ 0) : l2norm row = 1 := by
  simp only [load_embeddings] at hrow
  obtain ⟨mat, _, rfl⟩ := List.mem_map.mp hrow
  by_cases h0 : l2norm (mat.drop 1).flatten = 0
  · obtain ⟨x, hx, hxne⟩ := hnz
    exact absurd (normalizeRow_of_l2norm_zero _ h0 x hx) hxne
  · exact l2norm_normalizeRow _ h0

/-- Witness for C10: the single row produced from one stored matrix whose
flattened embedding is `[1, 0]` has unit norm. -/
theorem load_embeddings_unit_norm_witness :
    normalizeRow [(1 : ℝ), 0] ∈ load_embeddings [[[9], [1], [0]]] ∧
    l2norm (normalizeRow [(1 : ℝ), 0]) = 1 := by
  have hmem : normalizeRow [(1 : ℝ), 0] ∈ load_embeddings [[[9], [1], [0]]] := by
    change normalizeRow [(1 : ℝ), 0] ∈ [normalizeRow [(1 : ℝ), 0]]
    exact List.mem_singleton_self _
  have hsum : sumSq [(1 : ℝ), 0] = 1 := by
    norm_num [sumSq]
  have hone : l2norm [(1 : ℝ), 0] = 1 := by
    rw [l2norm, hsum, Real.sqrt_one]
  have hnr : normalizeRow [(1 : ℝ), 0] = [1, 0] := by
    simp [normalizeRow, hone]
  refine ⟨hmem, load_embeddings_unit_norm [[[9], [1], [0]]] _ hmem ?_⟩
  rw [hnr]
  exact ⟨1, by simp, one_ne_zero⟩

/-- Witness for C3: a two-character sequence with position 1 masked keeps its
second character and draws the first from the vocabulary. -/
theorem random_gen_spec_witness :
    (random_gen constChoice ['A', 'R'] [1]).length = (['A', 'R'] : List Char).length ∧
    ((random_gen constChoice ['A', 'R'] [1]).getD 1 'A' =
      (['A', 'R'] : List Char).getD 1 'A') ∧
    (random_gen constChoice ['A', 'R'] [1]).getD 0 'A' ∈ vocab :=
  ⟨(random_gen_spec constChoice ['A', 'R'] [1]).1,
    ((random_gen_spec constChoice ['A', 'R'] [1]).2 1 (by decide)).1 (by decide),
    ((random_gen_spec constChoice ['A', 'R'] [1]).2 0 (by decide)).2 (by decide)⟩

end Antibody
